import Mathlib

/-!
Verification development for a single-instance block indexer
(`block_processor.py`): a `BlockExplorer` class that acquires a cooperative
file lock, derives a resume cursor from an append-only `blocks.csv` ledger,
and backfills missing blocks from a chain node in strictly increasing height
order, halting on shutdown or on the first fetch/append failure.

Modelling conventions (shallow embedding):
* Block heights are natural numbers (the spec's data model declares heights
  to be positive integers).
* The observable result of `get_block(height)` — an HTTP fetch that either
  yields a `(height, hash)` pair or fails — is modelled as an oracle
  `fetch : Nat → Option (Nat × String)`; `none` is the `(None, None)`
  return of the Python error path.  The head-block call is modelled by
  passing the head height `current_height` to `process_missing_blocks`,
  exactly as `run()` does.
* The success of each `blocks.csv` append (an I/O write that may raise) is
  modelled as an oracle `appendOk : Nat → String → Bool`.
* The `running` flag is flipped asynchronously by the signal handler and is
  read once at the top of each loop iteration; those reads are modelled by a
  schedule `runningAt : Nat → Bool` giving the value observed at iteration
  `i` (counting from 0 within one tick).
* Files are modelled by their contents: the lock file `processor.state` as
  `Option String` (`none` = absent), the ledger `blocks.csv` as an
  `Option (List String)` of its lines (without trailing newline characters);
  during a tick the appended data rows are tracked as `(height, hash)`
  pairs in `ExplorerState.records`.
* Python's `str.strip()` and base-10 `int()` are modelled concretely
  (`pyStrip`, `pyInt`): the Python whitespace set, optional sign,
  underscores between digits, and the Unicode decimal-digit runs.  `pyInt`
  returns an `Int`; the cursor assignment in `_init_blocks_file` takes its
  `Int.toNat`, heights being naturals in this model.
* The read of an existing `blocks.csv` (`open`/`readlines`) can itself
  raise inside the `try` of `_init_blocks_file`; that I/O outcome is the
  oracle argument of `init_blocks_file_existing` (`none` = the read
  raised).
-/

namespace BlockProcessor

/-- The in-memory state of the explorer that one tick of
`process_missing_blocks` reads and writes: the cursor
`self.last_processed_height` and the data records appended to `blocks.csv`
(after the `height,hash` header). -/
structure ExplorerState where
  last_processed_height : Nat
  records : List (Nat × String)
deriving Repr, DecidableEq

/-- `BlockExplorer.append_block(height, block_hash)`: writes one
`f"{height},{block_hash}"` line and then sets
`self.last_processed_height = height`, returning `True`; if the write
raises (the `appendOk` oracle says `false`), nothing is mutated and it
returns `False`. -/
def append_block (appendOk : Nat → String → Bool) (height : Nat)
    (block_hash : String) (s : ExplorerState) : Bool × ExplorerState :=
  if appendOk height block_hash then
    (true, { last_processed_height := height,
             records := s.records ++ [(height, block_hash)] })
  else
    (false, s)

/-- The `for height in range(...)` loop body of
`BlockExplorer.process_missing_blocks`, iterating over the remaining list
`hs` of heights with `i` the index of the current iteration (for the
`runningAt` schedule).  Each iteration: check `self.running`; call
`get_block(height)`; on success call `append_block(block_height,
block_hash)` with the values *returned* by `get_block`; `break` on a fetch
or append failure, `return` on shutdown. -/
def processHeights (fetch : Nat → Option (Nat × String))
    (appendOk : Nat → String → Bool) (runningAt : Nat → Bool)
    (i : Nat) (hs : List Nat) (s : ExplorerState) : ExplorerState :=
  match hs with
  | [] => s
  | h :: rest =>
    if runningAt i then
      match fetch h with
      | some (block_height, block_hash) =>
        let r := append_block appendOk block_height block_hash s
        if r.1 then processHeights fetch appendOk runningAt (i + 1) rest r.2
        else r.2
      | none => s
    else s

/-- `BlockExplorer.process_missing_blocks(current_height)`: if
`self.last_processed_height < current_height`, iterate over
`range(self.last_processed_height + 1, current_height + 1)` — that is,
`List.range' (lph + 1) (current_height - lph)` — otherwise do nothing. -/
def process_missing_blocks (fetch : Nat → Option (Nat × String))
    (appendOk : Nat → String → Bool) (runningAt : Nat → Bool)
    (current_height : Nat) (s : ExplorerState) : ExplorerState :=
  if s.last_processed_height < current_height then
    processHeights fetch appendOk runningAt 0
      (List.range' (s.last_processed_height + 1)
        (current_height - s.last_processed_height)) s
  else s

/-- The characters Python's `str.isspace()` reports as whitespace — the
set `str.strip()` and `int()` remove: ASCII `\t \n \x0b \x0c \r`, the
separators `\x1c`-`\x1f`, space, next-line `\x85`, and the Unicode space
characters (no-break space, Ogham space, `U+2000`-`U+200A`, line and
paragraph separator, narrow no-break space, medium mathematical space,
ideographic space). -/
def pyIsSpace (c : Char) : Bool :=
  let n := c.toNat
  (0x09 ≤ n && n ≤ 0x0D) || (0x1C ≤ n && n ≤ 0x1F) || n == 0x20 ||
    n == 0x85 || n == 0xA0 || n == 0x1680 ||
    (0x2000 ≤ n && n ≤ 0x200A) || n == 0x2028 || n == 0x2029 ||
    n == 0x202F || n == 0x205F || n == 0x3000

/-- Python's `str.strip()`: remove leading and trailing whitespace
characters (the `pyIsSpace` set).  Spelled out over the character list so
it computes by structural recursion. -/
def pyStrip (s : String) : String :=
  String.mk
    (((s.data.dropWhile pyIsSpace).reverse.dropWhile pyIsSpace).reverse)

/-- Python's `s.split(',')[0]`: everything before the first comma (the
whole string when it has no comma). -/
def firstField (s : String) : String :=
  String.mk (s.data.takeWhile (fun c => c ≠ ','))

/-- First codepoint of each run of ten decimal digits (Unicode category
`Nd`, Unicode 15.0 — the database CPython ships); `int()` accepts any of
these digits. -/
def pyDigitStarts : List Nat :=
  [0x30, 0x660, 0x6F0, 0x7C0, 0x966, 0x9E6, 0xA66, 0xAE6, 0xB66, 0xBE6,
   0xC66, 0xCE6, 0xD66, 0xDE6, 0xE50, 0xED0, 0xF20, 0x1040, 0x1090,
   0x17E0, 0x1810, 0x1946, 0x19D0, 0x1A80, 0x1A90, 0x1B50, 0x1BB0,
   0x1C40, 0x1C50, 0xA620, 0xA8D0, 0xA900, 0xA9D0, 0xA9F0, 0xAA50,
   0xABF0, 0xFF10, 0x104A0, 0x10D30, 0x11066, 0x110F0, 0x11136, 0x111D0,
   0x112F0, 0x11450, 0x114D0, 0x11650, 0x116C0, 0x11730, 0x118E0,
   0x11950, 0x11C50, 0x11D50, 0x11DA0, 0x11F50, 0x16A60, 0x16AC0,
   0x16B50, 0x1D7CE, 0x1D7D8, 0x1D7E2, 0x1D7EC, 0x1D7F6, 0x1E140,
   0x1E2F0, 0x1E4F0, 0x1E950, 0x1FBF0]

/-- Decimal value of a character under Python's `int()`: its offset in
whichever `Nd` digit run contains it, `none` for a non-digit. -/
def pyDigitVal (c : Char) : Option Nat :=
  pyDigitStarts.findSome? fun s =>
    if s ≤ c.toNat ∧ c.toNat ≤ s + 9 then some (c.toNat - s) else none

/-- The digit tail of a Python integer literal after its first digit:
further digits, with single underscores allowed only between digits
(leading, trailing or doubled underscores raise `ValueError`). -/
def pyDigitsAux : Nat → List Char → Option Nat
  | acc, [] => some acc
  | acc, '_' :: c :: cs =>
    match pyDigitVal c with
    | some d => pyDigitsAux (10 * acc + d) cs
    | none => none
  | _, ['_'] => none
  | acc, c :: cs =>
    match pyDigitVal c with
    | some d => pyDigitsAux (10 * acc + d) cs
    | none => none

/-- A Python digit string: nonempty, starting with a digit. -/
def pyIntDigits : List Char → Option Nat
  | [] => none
  | c :: cs =>
    match pyDigitVal c with
    | some d => pyDigitsAux d cs
    | none => none

/-- Python's `int(s)` in base 10: strips whitespace, accepts one optional
`+` or `-` sign, then a nonempty digit string (any Unicode decimal digits,
single underscores between digits); anything else raises `ValueError`,
modelled as `none`. -/
def pyInt (s : String) : Option Int :=
  match (pyStrip s).data with
  | '+' :: rest => (pyIntDigits rest).map (fun n => (n : Int))
  | '-' :: rest => (pyIntDigits rest).map (fun n => -(n : Int))
  | rest => (pyIntDigits rest).map (fun n => (n : Int))

/-- `BlockExplorer._check_and_acquire_lock`: if `processor.state` exists and
its content, stripped of surrounding whitespace, equals `"processing"`,
return `False` without touching the file; otherwise write `"processing\n"`
to it and return `True`.  Returns the flag together with the resulting
lock-file content. -/
def check_and_acquire_lock (state_file : Option String) :
    Bool × Option String :=
  match state_file with
  | some content =>
    if pyStrip content = "processing" then (false, some content)
    else (true, some "processing\n")
  | none => (true, some "processing\n")

/-- The parse of the resume cursor from the last ledger line in
`_init_blocks_file`: `int(last_line.strip().split(',')[0])`, with a parse
failure (the raised `ValueError`) as `none`. -/
def parseHeightField (last_line : String) : Option Int :=
  pyInt (firstField (pyStrip last_line))

/-- The `try` block of `_init_blocks_file` for an existing `blocks.csv`,
returning the resulting cursor.  `readOutcome` is the observable result of
`open`/`readlines`: `some lines` when the read succeeds, `none` when it
raises an I/O error (environmental, so an oracle).  A raised read or a
failed parse is caught by the `except` — logged, cursor unchanged.  On a
successful parse the cursor is set to the parsed value; its `Int.toNat` is
taken because heights are modelled as naturals (see the module
conventions) — every field this program writes is the decimal form of a
natural number, so the parsed value is nonnegative on every file the
program itself produced. -/
def init_blocks_file_existing (readOutcome : Option (List String))
    (last_processed_height : Nat) : Nat :=
  match readOutcome with
  | none => last_processed_height
  | some lines =>
    if 1 < lines.length then
      match parseHeightField (lines.getLastD "") with
      | some h => h.toNat
      | none => last_processed_height
    else last_processed_height

/-- `BlockExplorer._init_blocks_file`: if `blocks.csv` is absent, create it
with the `height,hash` header and leave the cursor alone; otherwise run the
`try` block on the file's lines (the successful-read outcome — `FS` supplies
the content).  Returns the cursor and the resulting file lines. -/
def init_blocks_file (blocks_file : Option (List String))
    (last_processed_height : Nat) : Nat × List String :=
  match blocks_file with
  | none => (last_processed_height, ["height,hash"])
  | some lines =>
    (init_blocks_file_existing (some lines) last_processed_height, lines)

/-- The durable files the explorer touches: the lock marker
`processor.state` and the ledger `blocks.csv` (`none` = file absent). -/
structure FS where
  state_file : Option String
  blocks_file : Option (List String)
deriving Repr, DecidableEq

/-- Outcome of `BlockExplorer.__init__`: either `sys.exit(0)` on lock
contention (exit code 0, with the files as they stand), or a started
explorer with its initial state and the files after initialization. -/
inductive InitResult where
  | exit0 (fs : FS)
  | ok (s : ExplorerState) (fs : FS)
deriving Repr, DecidableEq

/-- `BlockExplorer.__init__`: sets `self.last_processed_height = 1`, then
checks the lock — exiting with code 0 if `_check_and_acquire_lock` returns
`False` — and then runs `_init_blocks_file`. -/
def explorerInit (fs : FS) : InitResult :=
  match check_and_acquire_lock fs.state_file with
  | (false, st) => InitResult.exit0 { fs with state_file := st }
  | (true, st) =>
    let r := init_blocks_file fs.blocks_file 1
    InitResult.ok { last_processed_height := r.1, records := [] }
      { state_file := st, blocks_file := some r.2 }

/-- The trace of in-memory states of one `process_missing_blocks` loop:
the input state followed by the state after each completed iteration. -/
def processStates (fetch : Nat → Option (Nat × String))
    (appendOk : Nat → String → Bool) (runningAt : Nat → Bool)
    (i : Nat) (hs : List Nat) (s : ExplorerState) : List ExplorerState :=
  match hs with
  | [] => [s]
  | h :: rest =>
    if runningAt i then
      match fetch h with
      | some (block_height, block_hash) =>
        let r := append_block appendOk block_height block_hash s
        if r.1 then s :: processStates fetch appendOk runningAt (i + 1) rest r.2
        else [s]
      | none => [s]
    else [s]

/-- The ledger ordering invariant: adjacent data records have consecutive
heights, and the cursor equals the height of the last record (trivially so
when there are no records). -/
def ledgerInv (s : ExplorerState) : Prop :=
  List.Chain' (fun a b => b.1 = a.1 + 1) s.records ∧
    (s.records.map Prod.fst).getLastD s.last_processed_height
      = s.last_processed_height

/-- Boolean check that a list of heights increases by exactly one at each
step; used to decide `ledgerInv` on concrete states. -/
def consecutiveB : List Nat → Bool
  | [] => true
  | [_] => true
  | a :: b :: l => (b == a + 1) && consecutiveB (b :: l)

theorem consecutiveB_iff_chain' :
    ∀ l : List Nat,
      consecutiveB l = true ↔ List.Chain' (fun a b => b = a + 1) l
  | [] => by simp [consecutiveB]
  | [_] => by simp [consecutiveB]
  | a :: b :: l => by
    rw [List.chain'_cons, ← consecutiveB_iff_chain' (b :: l)]
    simp [consecutiveB, Bool.and_eq_true]

instance (s : ExplorerState) : Decidable (ledgerInv s) :=
  decidable_of_iff
    (consecutiveB (s.records.map Prod.fst) = true ∧
      (s.records.map Prod.fst).getLastD s.last_processed_height
        = s.last_processed_height)
    (by
      rw [consecutiveB_iff_chain', List.chain'_map]
      exact Iff.rfl)

/-! ### Loop lemmas -/

theorem processHeights_nil (fetch : Nat → Option (Nat × String))
    (appendOk : Nat → String → Bool) (runningAt : Nat → Bool)
    (i : Nat) (s : ExplorerState) :
    processHeights fetch appendOk runningAt i [] s = s := rfl

theorem processHeights_stop_shutdown (fetch : Nat → Option (Nat × String))
    (appendOk : Nat → String → Bool) (runningAt : Nat → Bool)
    (i x : Nat) (ys : List Nat) (s : ExplorerState)
    (h : runningAt i = false) :
    processHeights fetch appendOk runningAt i (x :: ys) s = s := by
  simp [processHeights, h]

theorem processHeights_stop_fetch (fetch : Nat → Option (Nat × String))
    (appendOk : Nat → String → Bool) (runningAt : Nat → Bool)
    (i x : Nat) (ys : List Nat) (s : ExplorerState)
    (hf : fetch x = none) :
    processHeights fetch appendOk runningAt i (x :: ys) s = s := by
  by_cases hr : runningAt i = true
  · simp [processHeights, hr, hf]
  · simp at hr
    simp [processHeights, hr]

theorem processHeights_stop_append (fetch : Nat → Option (Nat × String))
    (appendOk : Nat → String → Bool) (runningAt : Nat → Bool)
    (i x bh : Nat) (bhash : String) (ys : List Nat) (s : ExplorerState)
    (hf : fetch x = some (bh, bhash)) (ha : appendOk bh bhash = false) :
    processHeights fetch appendOk runningAt i (x :: ys) s = s := by
  by_cases hr : runningAt i = true
  · simp [processHeights, hr, hf, append_block, ha]
  · simp at hr
    simp [processHeights, hr]

/-- Running a prefix of heights on which the flag is up and every fetch
returns the requested height and every append succeeds: the loop consumes
the prefix, appending one record per height and leaving the cursor at the
last consumed height. -/
theorem processHeights_all_success (fetch : Nat → Option (Nat × String))
    (appendOk : Nat → String → Bool) (runningAt : Nat → Bool)
    (hsh : Nat → String) :
    ∀ (xs ys : List Nat) (i : Nat) (s : ExplorerState),
      (∀ m, m < xs.length → runningAt (i + m) = true) →
      (∀ j ∈ xs, fetch j = some (j, hsh j)) →
      (∀ j ∈ xs, appendOk j (hsh j) = true) →
      processHeights fetch appendOk runningAt i (xs ++ ys) s =
        processHeights fetch appendOk runningAt (i + xs.length) ys
          { last_processed_height := xs.getLastD s.last_processed_height,
            records := s.records ++ xs.map (fun j => (j, hsh j)) } := by
  intro xs
  induction xs with
  | nil => intro ys i s _ _ _; simp
  | cons x xs ih =>
    intro ys i s hrun hfet happ
    have hr0 : runningAt i = true := by simpa using hrun 0 (by simp)
    have hfx : fetch x = some (x, hsh x) := hfet x (by simp)
    have hax : appendOk x (hsh x) = true := happ x (by simp)
    rw [List.cons_append]
    rw [show processHeights fetch appendOk runningAt i (x :: (xs ++ ys)) s =
        processHeights fetch appendOk runningAt (i + 1) (xs ++ ys)
          { last_processed_height := x,
            records := s.records ++ [(x, hsh x)] } by
      simp [processHeights, hr0, hfx, append_block, hax]]
    rw [ih ys (i + 1)
      { last_processed_height := x, records := s.records ++ [(x, hsh x)] }
      (fun m hm => by
        have := hrun (m + 1) (by simpa using Nat.succ_lt_succ hm)
        simpa [Nat.add_assoc, Nat.add_comm 1 m] using this)
      (fun j hj => hfet j (by simp [hj]))
      (fun j hj => happ j (by simp [hj]))]
    rw [List.getLastD_cons s.last_processed_height x xs]
    simp only [List.length_cons, Nat.add_assoc, Nat.add_comm 1 xs.length,
      List.map_cons, List.append_assoc, List.singleton_append]

theorem getLastD_range'_succ :
    ∀ (n a d : Nat), (List.range' a (n + 1)).getLastD d = a + n := by
  intro n
  induction n with
  | zero => intro a d; simp [List.range'_succ]
  | succ n ih =>
    intro a d
    rw [List.range'_succ, List.getLastD_cons, ih (a + 1) a]
    omega

/-- One fully unobstructed tick from a cursor strictly below the head:
the ledger gains one record per missing height and the cursor lands on the
head. -/
theorem pmb_all_success (hsh : Nat → String) (current : Nat)
    (s : ExplorerState) (h : s.last_processed_height < current) :
    process_missing_blocks (fun j => some (j, hsh j)) (fun _ _ => true)
        (fun _ => true) current s =
      { last_processed_height := current,
        records := s.records ++
          (List.range' (s.last_processed_height + 1)
            (current - s.last_processed_height)).map
              (fun j => (j, hsh j)) } := by
  unfold process_missing_blocks
  rw [if_pos h]
  have hsplit : List.range' (s.last_processed_height + 1)
      (current - s.last_processed_height) =
      List.range' (s.last_processed_height + 1)
        (current - s.last_processed_height) ++ [] := by simp
  rw [hsplit,
    processHeights_all_success _ _ _ hsh _ [] 0 s
      (fun _ _ => rfl)
      (fun j _ => rfl)
      (fun j _ => rfl),
    processHeights_nil]
  have hn : current - s.last_processed_height =
      (current - s.last_processed_height - 1) + 1 := by omega
  rw [hn, getLastD_range'_succ]
  have : s.last_processed_height + 1 +
      (current - s.last_processed_height - 1) = current := by omega
  rw [this, ← hn]
  simp

/-- A tick that succeeds on the first `t` missing heights and then stops —
by a cleared running flag, a failed fetch, or a failed append at height
`k + t + 1`: the ledger gains exactly the records for `k+1 .. k+t` and the
cursor lands on `k + t`. -/
theorem pmb_prefix_then_stop (fetch : Nat → Option (Nat × String))
    (appendOk : Nat → String → Bool) (runningAt : Nat → Bool)
    (hsh : Nat → String) (k t current : Nat) (s : ExplorerState)
    (hc : s.last_processed_height = k)
    (ht : k + t < current)
    (hrun : ∀ m ∈ List.range t, runningAt m = true)
    (hfet : ∀ j ∈ List.range' (k + 1) t, fetch j = some (j, hsh j))
    (happ : ∀ j ∈ List.range' (k + 1) t, appendOk j (hsh j) = true)
    (hstop : runningAt t = false ∨ fetch (k + t + 1) = none ∨
      ∃ bh bhash, fetch (k + t + 1) = some (bh, bhash) ∧
        appendOk bh bhash = false) :
    process_missing_blocks fetch appendOk runningAt current s =
      { last_processed_height := k + t,
        records := s.records ++
          (List.range' (k + 1) t).map (fun j => (j, hsh j)) } := by
  unfold process_missing_blocks
  rw [if_pos (by omega : s.last_processed_height < current), hc]
  have hsplit : List.range' (k + 1) (current - k) =
      List.range' (k + 1) t ++ List.range' (k + 1 + t) (current - k - t) := by
    rw [List.range'_append_1]
    congr 1
    omega
  rw [hsplit,
    processHeights_all_success _ _ _ hsh _ _ 0 s
      (fun m hm => by
        rw [Nat.zero_add]
        refine hrun m ?_
        rw [List.mem_range]
        simpa [List.length_range'] using hm)
      hfet happ]
  have hlast : (List.range' (k + 1) t).getLastD s.last_processed_height
      = k + t := by
    cases t with
    | zero => simpa using hc
    | succ t' => rw [getLastD_range'_succ]; omega
  have hys : List.range' (k + 1 + t) (current - k - t) =
      (k + t + 1) :: List.range' (k + t + 2) (current - k - t - 1) := by
    have h1 : current - k - t = (current - k - t - 1) + 1 := by omega
    have h2 : k + 1 + t = k + t + 1 := by omega
    rw [h1, List.range'_succ, h2, show k + t + 1 + 1 = k + t + 2 by omega]
    congr 1
  rw [hlast, hys]
  simp only [List.length_range', Nat.zero_add]
  rcases hstop with hstop | hstop | ⟨bh, bhash, hf, ha⟩
  · exact processHeights_stop_shutdown _ _ _ _ _ _ _ hstop
  · exact processHeights_stop_fetch _ _ _ _ _ _ _ hstop
  · exact processHeights_stop_append _ _ _ _ _ bh bhash _ _ hf ha

/-! ### Invariant preservation and cursor monotonicity -/

/-- One successful loop iteration preserves the ledger ordering
invariant: the appended record's height is the cursor plus one. -/
theorem ledgerInv_append (s : ExplorerState) (bhash : String)
    (hinv : ledgerInv s) :
    ledgerInv
      { last_processed_height := s.last_processed_height + 1,
        records := s.records ++
          [(s.last_processed_height + 1, bhash)] } := by
  obtain ⟨hchain, hlast⟩ := hinv
  constructor
  · rw [List.chain'_append]
    refine ⟨hchain, List.chain'_singleton _, ?_⟩
    intro a ha b hb
    simp only [List.head?_cons, Option.mem_def, Option.some.injEq] at hb
    subst hb
    have hmap : (s.records.map Prod.fst).getLast? = some a.1 := by
      rw [List.getLast?_map, ha]
      rfl
    rw [List.getLastD_eq_getLast?, hmap] at hlast
    simp only [Option.getD_some] at hlast
    simp [hlast]
  · simp

/-- The loop preserves the ledger ordering invariant, provided each
successful fetch returns the block at the requested height (the chain-node
contract of spec §4.3). -/
theorem processHeights_inv (fetch : Nat → Option (Nat × String))
    (appendOk : Nat → String → Bool) (runningAt : Nat → Bool)
    (hfaith : ∀ j p, fetch j = some p → p.1 = j) :
    ∀ (n c i : Nat) (s : ExplorerState), s.last_processed_height = c →
      ledgerInv s →
      ledgerInv
        (processHeights fetch appendOk runningAt i
          (List.range' (c + 1) n) s) := by
  intro n
  induction n with
  | zero => intro c i s _ hinv; simpa [processHeights] using hinv
  | succ n ih =>
    intro c i s hc hinv
    rw [List.range'_succ]
    by_cases hr : runningAt i = true
    · cases hf : fetch (c + 1) with
      | none => rw [processHeights_stop_fetch _ _ _ _ _ _ _ hf]; exact hinv
      | some p =>
        obtain ⟨bh, bhash⟩ := p
        have hbh : bh = c + 1 := hfaith _ _ hf
        subst hbh
        by_cases ha : appendOk (c + 1) bhash = true
        · have hstep : processHeights fetch appendOk runningAt i
              ((c + 1) :: List.range' (c + 1 + 1) n) s =
              processHeights fetch appendOk runningAt (i + 1)
                (List.range' (c + 1 + 1) n)
                { last_processed_height := c + 1,
                  records := s.records ++ [(c + 1, bhash)] } := by
            simp [processHeights, hr, hf, append_block, ha]
          rw [hstep]
          exact ih (c + 1) (i + 1) _ rfl (by rw [← hc]; exact ledgerInv_append s bhash hinv)
        · rw [processHeights_stop_append _ _ _ _ _ _ bhash _ _ hf
            (by simpa using ha)]
          exact hinv
    · rw [processHeights_stop_shutdown _ _ _ _ _ _ _ (by simpa using hr)]
      exact hinv

/-- The loop never lowers the cursor, provided each successful fetch
returns the block at the requested height. -/
theorem processHeights_cursor_le (fetch : Nat → Option (Nat × String))
    (appendOk : Nat → String → Bool) (runningAt : Nat → Bool)
    (hfaith : ∀ j p, fetch j = some p → p.1 = j) :
    ∀ (n c i : Nat) (s : ExplorerState), s.last_processed_height = c →
      s.last_processed_height ≤
        (processHeights fetch appendOk runningAt i
          (List.range' (c + 1) n) s).last_processed_height := by
  intro n
  induction n with
  | zero => intro c i s _; simp [processHeights]
  | succ n ih =>
    intro c i s hc
    rw [List.range'_succ]
    by_cases hr : runningAt i = true
    · cases hf : fetch (c + 1) with
      | none => rw [processHeights_stop_fetch _ _ _ _ _ _ _ hf]
      | some p =>
        obtain ⟨bh, bhash⟩ := p
        have hbh : bh = c + 1 := hfaith _ _ hf
        subst hbh
        by_cases ha : appendOk (c + 1) bhash = true
        · have hstep : processHeights fetch appendOk runningAt i
              ((c + 1) :: List.range' (c + 1 + 1) n) s =
              processHeights fetch appendOk runningAt (i + 1)
                (List.range' (c + 1 + 1) n)
                { last_processed_height := c + 1,
                  records := s.records ++ [(c + 1, bhash)] } := by
            simp [processHeights, hr, hf, append_block, ha]
          rw [hstep]
          refine le_trans ?_ (ih (c + 1) (i + 1)
            { last_processed_height := c + 1,
              records := s.records ++ [(c + 1, bhash)] } rfl)
          rw [hc]
          exact Nat.le_succ c
        · rw [processHeights_stop_append _ _ _ _ _ _ bhash _ _ hf
            (by simpa using ha)]
    · rw [processHeights_stop_shutdown _ _ _ _ _ _ _ (by simpa using hr)]

/-- The state trace of a loop run always starts with the input state. -/
theorem processStates_head (fetch : Nat → Option (Nat × String))
    (appendOk : Nat → String → Bool) (runningAt : Nat → Bool)
    (i : Nat) (hs : List Nat) (s : ExplorerState) :
    (processStates fetch appendOk runningAt i hs s).head? = some s := by
  cases hs with
  | nil => rfl
  | cons h rest =>
    unfold processStates
    by_cases hr : runningAt i = true
    · rw [if_pos hr]
      cases hf : fetch h with
      | none => rfl
      | some p =>
        obtain ⟨bh, bhash⟩ := p
        by_cases ha : (append_block appendOk bh bhash s).1 = true
        · simp [ha]
        · simp [ha]
    · rw [if_neg hr]
      rfl

/-- Along one loop run, the observed cursor values never decrease,
provided each successful fetch returns the block at the requested
height. -/
theorem processStates_cursor_chain (fetch : Nat → Option (Nat × String))
    (appendOk : Nat → String → Bool) (runningAt : Nat → Bool)
    (hfaith : ∀ j p, fetch j = some p → p.1 = j) :
    ∀ (n c i : Nat) (s : ExplorerState), s.last_processed_height = c →
      List.Chain'
        (fun a b => a.last_processed_height ≤ b.last_processed_height)
        (processStates fetch appendOk runningAt i
          (List.range' (c + 1) n) s) := by
  intro n
  induction n with
  | zero => intro c i s _; simp [processStates]
  | succ n ih =>
    intro c i s hc
    rw [List.range'_succ]
    by_cases hr : runningAt i = true
    · cases hf : fetch (c + 1) with
      | none => simp [processStates, hr, hf]
      | some p =>
        obtain ⟨bh, bhash⟩ := p
        have hbh : bh = c + 1 := hfaith _ _ hf
        subst hbh
        by_cases ha : appendOk (c + 1) bhash = true
        · have hstep : processStates fetch appendOk runningAt i
              ((c + 1) :: List.range' (c + 1 + 1) n) s =
              s :: processStates fetch appendOk runningAt (i + 1)
                (List.range' (c + 1 + 1) n)
                { last_processed_height := c + 1,
                  records := s.records ++ [(c + 1, bhash)] } := by
            simp [processStates, hr, hf, append_block, ha]
          rw [hstep, List.chain'_cons']
          constructor
          · intro y hy
            rw [processStates_head] at hy
            simp only [Option.mem_def, Option.some.injEq] at hy
            subst hy
            simp [hc]
          · exact ih (c + 1) (i + 1) _ rfl
        · simp [processStates, hr, hf, append_block, ha]
    · simp [processStates, hr]

/-! ### Claim theorems -/

/-- C1: for every ledger with tail height `k` and a chain head at `k + 5`,
one tick of `process_missing_blocks` with the running flag set and every
fetch and append succeeding yields tail height `k + 5`, with records for
`k+1 .. k+5` appended in increasing order. -/
theorem claim_C1_idempotent_resume (k : Nat) (hsh : Nat → String)
    (s : ExplorerState) (hc : s.last_processed_height = k) :
    (process_missing_blocks (fun j => some (j, hsh j)) (fun _ _ => true)
        (fun _ => true) (k + 5) s).last_processed_height = k + 5 ∧
    (process_missing_blocks (fun j => some (j, hsh j)) (fun _ _ => true)
        (fun _ => true) (k + 5) s).records =
      s.records ++ (List.range' (k + 1) 5).map (fun j => (j, hsh j)) := by
  rw [pmb_all_success hsh (k + 5) s (by omega), hc]
  rw [show k + 5 - k = 5 by omega]
  exact ⟨rfl, rfl⟩

theorem claim_C1_witness :
    (process_missing_blocks (fun j => some (j, "x")) (fun _ _ => true)
        (fun _ => true) 7 ⟨2, []⟩).last_processed_height = 7 ∧
    (process_missing_blocks (fun j => some (j, "x")) (fun _ _ => true)
        (fun _ => true) 7 ⟨2, []⟩).records =
      [] ++ (List.range' 3 5).map (fun j => (j, "x")) :=
  claim_C1_idempotent_resume 2 (fun _ => "x") ⟨2, []⟩ rfl

/-- C2: every ledger state produced by a tick satisfies the ordering
invariant — adjacent records have consecutive heights and the cursor is
the tail height — assuming the initial state satisfies it and each
successful fetch returns the block at the requested height (it is this
returned height, not the loop index, that gets appended). -/
theorem claim_C2_ordering_invariant (fetch : Nat → Option (Nat × String))
    (appendOk : Nat → String → Bool) (runningAt : Nat → Bool)
    (current : Nat) (s : ExplorerState)
    (hfaith : ∀ j p, fetch j = some p → p.1 = j)
    (hinv : ledgerInv s) :
    ledgerInv (process_missing_blocks fetch appendOk runningAt current s) := by
  unfold process_missing_blocks
  by_cases h : s.last_processed_height < current
  · rw [if_pos h]
    exact processHeights_inv fetch appendOk runningAt hfaith _ _ 0 s rfl hinv
  · rw [if_neg h]
    exact hinv

theorem claim_C2_witness :
    ledgerInv (process_missing_blocks (fun j => some (j, "h"))
      (fun _ _ => true) (fun _ => true) 4 ⟨2, [(1, "a"), (2, "b")]⟩) :=
  claim_C2_ordering_invariant _ _ _ 4 _
    (fun j p hp => by rw [show p = (j, "h") from (Option.some.inj hp).symm])
    (by decide)

/-- C3: when the flag stays up but the fetch or the append for height `h`
fails — every lower missing height having succeeded — the tick stops at
`h`: the cursor ends at exactly `h - 1`, the tick appends exactly the
records for the heights below `h`, and no record for `h` or any greater
height is written. -/
theorem claim_C3_gap_free_halt (fetch : Nat → Option (Nat × String))
    (appendOk : Nat → String → Bool) (runningAt : Nat → Bool)
    (hsh : Nat → String) (k h current : Nat) (s : ExplorerState)
    (hc : s.last_processed_height = k)
    (hkh : k < h) (hhc : h ≤ current)
    (hrun : ∀ m ∈ List.range (h - k), runningAt m = true)
    (hfet : ∀ j ∈ List.range' (k + 1) (h - 1 - k), fetch j = some (j, hsh j))
    (happ : ∀ j ∈ List.range' (k + 1) (h - 1 - k), appendOk j (hsh j) = true)
    (hfail : fetch h = none ∨
      ∃ bh bhash, fetch h = some (bh, bhash) ∧ appendOk bh bhash = false) :
    (process_missing_blocks fetch appendOk runningAt current
        s).last_processed_height = h - 1 ∧
    (process_missing_blocks fetch appendOk runningAt current s).records =
      s.records ++
        (List.range' (k + 1) (h - 1 - k)).map (fun j => (j, hsh j)) ∧
    ∀ r ∈ (process_missing_blocks fetch appendOk runningAt current s).records,
      r ∉ s.records → r.1 < h := by
  have hkt : k + (h - 1 - k) + 1 = h := by omega
  have hres := pmb_prefix_then_stop fetch appendOk runningAt hsh k
    (h - 1 - k) current s hc (by omega)
    (fun m hm => hrun m (by rw [List.mem_range] at hm ⊢; omega))
    hfet happ
    (by
      rw [hkt]
      rcases hfail with hf | ⟨bh, bhash, hf, ha⟩
      · exact Or.inr (Or.inl hf)
      · exact Or.inr (Or.inr ⟨bh, bhash, hf, ha⟩))
  rw [hres]
  refine ⟨by show k + (h - 1 - k) = h - 1; omega, rfl, ?_⟩
  intro r hr hnot
  rcases List.mem_append.mp hr with hr | hr
  · exact absurd hr hnot
  · obtain ⟨j, hj, rfl⟩ := List.mem_map.mp hr
    obtain ⟨i, hi, rfl⟩ := List.mem_range'.mp hj
    simp only
    omega

theorem claim_C3_witness :
    ((process_missing_blocks (fun j => if j < 3 then some (j, "x") else none)
        (fun _ _ => true) (fun _ => true) 5
        ⟨1, []⟩).last_processed_height = 3 - 1 ∧
      (process_missing_blocks (fun j => if j < 3 then some (j, "x") else none)
        (fun _ _ => true) (fun _ => true) 5 ⟨1, []⟩).records =
        [] ++ (List.range' 2 (3 - 1 - 1)).map (fun j => (j, "x")) ∧
      ∀ r ∈ (process_missing_blocks
          (fun j => if j < 3 then some (j, "x") else none)
          (fun _ _ => true) (fun _ => true) 5 ⟨1, []⟩).records,
        r ∉ ([] : List (Nat × String)) → r.1 < 3) :=
  claim_C3_gap_free_halt _ _ _ (fun _ => "x") 1 3 5 ⟨1, []⟩ rfl
    (by decide) (by decide) (fun _ _ => rfl) (by decide) (by decide)
    (Or.inl (by decide))

/-- C4 counterexample: with no ledger file the cursor starts at 1, not at
the pre-genesis sentinel 0, so a bootstrap run with chain head 3 appends
records for heights 2 and 3 only — the first record's height is 2, and no
record for genesis height 1 is ever written. -/
theorem claim_C4_cex :
    explorerInit ⟨none, none⟩ =
      InitResult.ok ⟨1, []⟩ ⟨some "processing\n", some ["height,hash"]⟩ ∧
    (process_missing_blocks (fun j => some (j, "h")) (fun _ _ => true)
        (fun _ => true) 3 ⟨1, []⟩).records.map Prod.fst = [2, 3] ∧
    ([2, 3] : List Nat) ≠ [1, 2, 3] :=
  ⟨by decide, by decide, by decide⟩

/-- C4 (amended): starting with no ledger file and a chain head at height
`H ≥ 2`, initialization creates exactly the header line and sets the
cursor to 1 (not the sentinel 0); one unobstructed tick then appends
records for heights 2 through `H` in order and ends with cursor `H` — the
first record's height is 2 and height 1 is never recorded. -/
theorem claim_C4_empty_bootstrap (H : Nat) (hsh : Nat → String)
    (hH : 2 ≤ H) :
    explorerInit ⟨none, none⟩ =
      InitResult.ok ⟨1, []⟩ ⟨some "processing\n", some ["height,hash"]⟩ ∧
    (process_missing_blocks (fun j => some (j, hsh j)) (fun _ _ => true)
        (fun _ => true) H ⟨1, []⟩).last_processed_height = H ∧
    (process_missing_blocks (fun j => some (j, hsh j)) (fun _ _ => true)
        (fun _ => true) H ⟨1, []⟩).records =
      (List.range' 2 (H - 1)).map (fun j => (j, hsh j)) := by
  refine ⟨by decide, ?_, ?_⟩
  · rw [pmb_all_success hsh H ⟨1, []⟩ (by show 1 < H; omega)]
  · rw [pmb_all_success hsh H ⟨1, []⟩ (by show 1 < H; omega)]
    show [] ++ (List.range' (1 + 1) (H - 1)).map (fun j => (j, hsh j)) =
      (List.range' 2 (H - 1)).map (fun j => (j, hsh j))
    rw [List.nil_append]

theorem claim_C4_witness :
    explorerInit ⟨none, none⟩ =
      InitResult.ok ⟨1, []⟩ ⟨some "processing\n", some ["height,hash"]⟩ ∧
    (process_missing_blocks (fun j => some (j, "h")) (fun _ _ => true)
        (fun _ => true) 3 ⟨1, []⟩).last_processed_height = 3 ∧
    (process_missing_blocks (fun j => some (j, "h")) (fun _ _ => true)
        (fun _ => true) 3 ⟨1, []⟩).records =
      (List.range' 2 2).map (fun j => (j, "h")) :=
  claim_C4_empty_bootstrap 3 (fun _ => "h") (by decide)

/-- C5: the cursor is mutated only by a successful append — a successful
`append_block` leaves the cursor at exactly the appended height, a failed
one changes nothing — and, when each successful fetch returns the block
at the requested height, the cursor values observed along a tick never
decrease and a whole tick never lowers the cursor. -/
theorem claim_C5_cursor_monotone (fetch : Nat → Option (Nat × String))
    (appendOk : Nat → String → Bool) (runningAt : Nat → Bool)
    (hfaith : ∀ j p, fetch j = some p → p.1 = j) :
    (∀ (height : Nat) (block_hash : String) (s : ExplorerState),
        (append_block appendOk height block_hash s).1 = true →
          (append_block appendOk height block_hash s).2.last_processed_height
            = height) ∧
    (∀ (height : Nat) (block_hash : String) (s : ExplorerState),
        (append_block appendOk height block_hash s).1 = false →
          (append_block appendOk height block_hash s).2 = s) ∧
    (∀ (n : Nat) (s : ExplorerState),
        List.Chain'
          (fun a b => a.last_processed_height ≤ b.last_processed_height)
          (processStates fetch appendOk runningAt 0
            (List.range' (s.last_processed_height + 1) n) s)) ∧
    (∀ (current : Nat) (s : ExplorerState),
        s.last_processed_height ≤
          (process_missing_blocks fetch appendOk runningAt current
            s).last_processed_height) := by
  refine ⟨?_, ?_, ?_, ?_⟩
  · intro height block_hash s hok
    unfold append_block at hok ⊢
    by_cases ha : appendOk height block_hash = true
    · rw [if_pos ha]
    · rw [if_neg ha] at hok
      exact absurd hok (by simp)
  · intro height block_hash s hok
    unfold append_block at hok ⊢
    by_cases ha : appendOk height block_hash = true
    · rw [if_pos ha] at hok
      exact absurd hok (by simp)
    · rw [if_neg ha]
  · intro n s
    exact processStates_cursor_chain fetch appendOk runningAt hfaith n _ 0 s rfl
  · intro current s
    unfold process_missing_blocks
    by_cases h : s.last_processed_height < current
    · rw [if_pos h]
      exact processHeights_cursor_le fetch appendOk runningAt hfaith _ _ 0 s rfl
    · rw [if_neg h]

theorem claim_C5_witness :
    (append_block (fun _ _ => true) 5 "h" ⟨4, []⟩).2.last_processed_height
      = 5 ∧
    List.Chain'
      (fun a b : ExplorerState =>
        a.last_processed_height ≤ b.last_processed_height)
      (processStates (fun j => some (j, "h")) (fun _ _ => true)
        (fun _ => true) 0 (List.range' 3 2) ⟨2, []⟩) ∧
    (2 : Nat) ≤ (process_missing_blocks (fun j => some (j, "h"))
      (fun _ _ => true) (fun _ => true) 4 ⟨2, []⟩).last_processed_height :=
  ⟨(claim_C5_cursor_monotone (fun j => some (j, "h")) (fun _ _ => true)
      (fun _ => true)
      (fun j p hp => by rw [show p = (j, "h") from (Option.some.inj hp).symm])).1
      5 "h" ⟨4, []⟩ rfl,
   (claim_C5_cursor_monotone (fun j => some (j, "h")) (fun _ _ => true)
      (fun _ => true)
      (fun j p hp => by rw [show p = (j, "h") from (Option.some.inj hp).symm])).2.2.1
      2 ⟨2, []⟩,
   (claim_C5_cursor_monotone (fun j => some (j, "h")) (fun _ _ => true)
      (fun _ => true)
      (fun j p hp => by rw [show p = (j, "h") from (Option.some.inj hp).symm])).2.2.2
      4 ⟨2, []⟩⟩

/-- C6 counterexample: a ledger whose trailing line fails to parse makes
initialization keep the cursor at its initialization value 1 — not fall
back to the pre-genesis sentinel 0 — while logging and continuing. -/
theorem claim_C6_cex :
    explorerInit ⟨none, some ["height,hash", "garbage"]⟩ =
      InitResult.ok ⟨1, []⟩
        ⟨some "processing\n", some ["height,hash", "garbage"]⟩ ∧
    (1 : Nat) ≠ 0 :=
  ⟨by decide, by decide⟩

/-- C6 (amended): if reading or parsing the existing ledger file at
startup raises an error, initialization recovers locally — the error is
logged and the process continues running with the cursor left at its
initialization value 1 (not the pre-genesis sentinel 0), the ledger file
untouched: a raised read (`open`/`readlines`) leaves the cursor at 1, and
so does a last line whose parse raises. -/
theorem claim_C6_parse_error_recovery (lines : List String)
    (hlen : 1 < lines.length)
    (hparse : parseHeightField (lines.getLastD "") = none) :
    init_blocks_file_existing none 1 = 1 ∧
    explorerInit ⟨none, some lines⟩ =
      InitResult.ok ⟨1, []⟩ ⟨some "processing\n", some lines⟩ := by
  refine ⟨rfl, ?_⟩
  unfold explorerInit check_and_acquire_lock init_blocks_file
    init_blocks_file_existing
  rw [List.getLastD_eq_getLast?] at hparse
  simp [hlen, hparse]

theorem claim_C6_witness :
    init_blocks_file_existing none 1 = 1 ∧
    explorerInit ⟨none, some ["height,hash", "garbage"]⟩ =
      InitResult.ok ⟨1, []⟩
        ⟨some "processing\n", some ["height,hash", "garbage"]⟩ :=
  claim_C6_parse_error_recovery ["height,hash", "garbage"] (by decide)
    (by decide)

/-- C7: when the lock marker exists with content `processing`, acquisition
returns `False` without mutating the marker, and initialization exits
immediately with code 0, the files — marker and ledger — untouched. -/
theorem claim_C7_mutual_exclusion (fs : FS)
    (h : fs.state_file = some "processing") :
    check_and_acquire_lock fs.state_file = (false, fs.state_file) ∧
    explorerInit fs = InitResult.exit0 fs := by
  obtain ⟨st, bf⟩ := fs
  simp only at h
  subst h
  exact ⟨rfl, rfl⟩

theorem claim_C7_witness :
    check_and_acquire_lock
        (FS.state_file ⟨some "processing", some ["height,hash"]⟩) =
      (false, some "processing") ∧
    explorerInit ⟨some "processing", some ["height,hash"]⟩ =
      InitResult.exit0 ⟨some "processing", some ["height,hash"]⟩ :=
  claim_C7_mutual_exclusion ⟨some "processing", some ["height,hash"]⟩ rfl

/-- C8: if the running flag is up for the first `t` iterations — which
fetch and append heights `k+1 .. k+t` successfully — and has been cleared
when the iteration for height `k+t+1` begins, the loop stops immediately
without fetching or appending that height: the tick ends with cursor
exactly `k + t` and appends exactly the records for `k+1 .. k+t`. -/
theorem claim_C8_shutdown_mid_backfill (fetch : Nat → Option (Nat × String))
    (appendOk : Nat → String → Bool) (runningAt : Nat → Bool)
    (hsh : Nat → String) (k t current : Nat) (s : ExplorerState)
    (hc : s.last_processed_height = k)
    (ht : k + t < current)
    (hrun : ∀ m ∈ List.range t, runningAt m = true)
    (hstop : runningAt t = false)
    (hfet : ∀ j ∈ List.range' (k + 1) t, fetch j = some (j, hsh j))
    (happ : ∀ j ∈ List.range' (k + 1) t, appendOk j (hsh j) = true) :
    process_missing_blocks fetch appendOk runningAt current s =
      { last_processed_height := k + t,
        records := s.records ++
          (List.range' (k + 1) t).map (fun j => (j, hsh j)) } :=
  pmb_prefix_then_stop fetch appendOk runningAt hsh k t current s hc ht
    hrun hfet happ (Or.inl hstop)

theorem claim_C8_witness :
    process_missing_blocks (fun j => some (j, "x")) (fun _ _ => true)
        (fun m => decide (m < 2)) 10 ⟨1, []⟩ =
      { last_processed_height := 1 + 2,
        records := [] ++ (List.range' 2 2).map (fun j => (j, "x")) } :=
  claim_C8_shutdown_mid_backfill (fun j => some (j, "x")) (fun _ _ => true)
    (fun m => decide (m < 2)) (fun _ => "x") 1 2 10 ⟨1, []⟩ rfl (by decide)
    (by decide) (by decide) (by decide) (by decide)

/-- C9: a tick whose fetched head height is at most the cursor performs no
mutation at all — the state, cursor and records alike, is returned
unchanged, whatever the fetch, append and flag oracles would do. -/
theorem claim_C9_no_op_tick (fetch : Nat → Option (Nat × String))
    (appendOk : Nat → String → Bool) (runningAt : Nat → Bool)
    (current : Nat) (s : ExplorerState)
    (h : current ≤ s.last_processed_height) :
    process_missing_blocks fetch appendOk runningAt current s = s := by
  unfold process_missing_blocks
  rw [if_neg (by omega)]

theorem claim_C9_witness :
    process_missing_blocks (fun j => some (j, "x")) (fun _ _ => true)
        (fun _ => true) 3 ⟨5, [(5, "a")]⟩ = ⟨5, [(5, "a")]⟩ :=
  claim_C9_no_op_tick (fun j => some (j, "x")) (fun _ _ => true)
    (fun _ => true) 3 ⟨5, [(5, "a")]⟩ (by decide)

/-- C10 counterexample: the lock file written by the program itself
contains `"processing\n"`, whose raw content differs from `"processing"`;
yet acquisition — which strips the content before comparing — still
returns `False` and leaves the marker unchanged, refuting the claim that
any content other than exactly `"processing"` is treated as released. -/
theorem claim_C10_cex :
    "processing\n" ≠ "processing" ∧
    check_and_acquire_lock (some "processing\n") =
      (false, some "processing\n") :=
  ⟨by decide, by decide⟩

/-- C10 (amended): if the lock marker file exists but its content
*stripped of surrounding whitespace* differs from `"processing"` (for
example empty or garbage), acquisition treats the lock as released: it
overwrites the file with `"processing\n"` and returns `True`. -/
theorem claim_C10_garbage_lock (content : String)
    (h : pyStrip content ≠ "processing") :
    check_and_acquire_lock (some content) = (true, some "processing\n") := by
  show (if pyStrip content = "processing" then
      ((false : Bool), some content)
    else ((true : Bool), some "processing\n")) = (true, some "processing\n")
  rw [if_neg h]

theorem claim_C10_witness :
    check_and_acquire_lock (some "garbage") = (true, some "processing\n") :=
  claim_C10_garbage_lock "garbage" (by decide)

end BlockProcessor
